import Mathlib

/-!
Verification of the Fourier-series evaluation engine of `fourier.py`.

The two evaluators `complex_fourier` and `real_fourier` are embedded
shallowly: NumPy arrays become `List`s, elementwise array operations become
`List.map` / `List.zipWith`, the Python `for n in range(1, N+1)` loop becomes
structural recursion over the list `termRange N = [1, …, N]`, and IEEE doubles
become exact reals (`ℝ`) and exact complex numbers (`ℂ`).

Besides the plain evaluators three instrumented variants are embedded, each
mirroring the same loop structure:
* `complex_fourierT` / `real_fourierT` additionally record the indices at
  which the coefficient functions are queried, in query order;
* `complex_fourierE` / `real_fourierE` take fallible coefficient functions
  (`ℤ → Except ε ℂ`) and model Python exception propagation: a division by
  zero in `w = 2*math.pi/T` (when `T = 0`) and any exception raised by a
  coefficient function abort the evaluation with that error.
-/

namespace Fourier

open Complex

/-- `range(1, N+1)` of the Python loop: the list `[1, …, N]`
(empty when `N ≤ 0`, matching Python's empty `range`). -/
def termRange (N : ℤ) : List ℕ :=
  (List.range N.toNat).map (· + 1)

/-- The loop body of `complex_fourier`, iterated over the remaining term
indices.  Each step fetches `c_n = c(n)` and `c_nn = c(-n)` once, forms the
elementwise exponent array `1j*n*w*t`, and adds `c_n*exp(exponent)` and then
`c_nn*exp(-exponent)` to the accumulator array. -/
noncomputable def complexLoop (c : ℤ → ℂ) (w : ℝ) (t : List ℝ) :
    List ℕ → List ℂ → List ℂ
  | [], acc => acc
  | n :: rest, acc =>
    let c_n := c (n : ℤ)
    let c_nn := c (-(n : ℤ))
    let exponent : List ℂ := t.map fun (ti : ℝ) => Complex.I * (n : ℂ) * (w : ℂ) * (ti : ℂ)
    complexLoop c w t rest
      (List.zipWith (fun s e => s + c_nn * Complex.exp (-e))
        (List.zipWith (fun s e => s + c_n * Complex.exp e) acc exponent) exponent)

/-- `complex_fourier(c, N, t, T)` from `fourier.py`: angular frequency
`w = 2π/T`, accumulator initialised to `zeros + c(0)`, loop over
`n ∈ range(1, N+1)`, and finally the elementwise real part. -/
noncomputable def complex_fourier (c : ℤ → ℂ) (N : ℤ) (t : List ℝ) (T : ℝ) :
    List ℝ :=
  let w := 2 * Real.pi / T
  let init := (t.map fun _ => (0 : ℂ)).map (fun s => s + c 0)
  (complexLoop c w t (termRange N) init).map Complex.re

/-- The loop body of `real_fourier`.  Each step fetches `a_n = a(n)` and
`b_n = b(n)` once, forms the elementwise argument array `n*w*t`, and adds
`a_n*cos(argument)` and then `b_n*sin(argument)` to the accumulator array.
The accumulator lives in `ℂ` because Python is dynamically typed: NumPy
silently upcasts the real accumulator when a coefficient function returns a
complex value. -/
noncomputable def realLoop (a b : ℤ → ℂ) (w : ℝ) (t : List ℝ) :
    List ℕ → List ℂ → List ℂ
  | [], acc => acc
  | n :: rest, acc =>
    let a_n := a (n : ℤ)
    let b_n := b (n : ℤ)
    let argument : List ℝ := t.map fun (ti : ℝ) => (n : ℝ) * w * ti
    realLoop a b w t rest
      (List.zipWith (fun s x => s + b_n * (Real.sin x : ℂ))
        (List.zipWith (fun s x => s + a_n * (Real.cos x : ℂ)) acc argument) argument)

/-- `real_fourier(a, b, N, t, T)` from `fourier.py`: angular frequency
`w = 2π/T`, accumulator initialised to `zeros + a(0)/2`, loop over
`n ∈ range(1, N+1)`; the accumulator is returned as is (no real projection
in the source). -/
noncomputable def real_fourier (a b : ℤ → ℂ) (N : ℤ) (t : List ℝ) (T : ℝ) :
    List ℂ :=
  let w := 2 * Real.pi / T
  let init := (t.map fun _ => (0 : ℂ)).map (fun s => s + a 0 / 2)
  realLoop a b w t (termRange N) init

/-- Value of the complex series at a single sample point `ti`:
`c(0) + Σ_{n=1}^{N} (c(n)·e^{i n w ti} + c(-n)·e^{-i n w ti})`, `w = 2π/T`. -/
noncomputable def complexPoint (c : ℤ → ℂ) (N : ℤ) (ti T : ℝ) : ℂ :=
  c 0 + ((termRange N).map fun (n : ℕ) =>
    c (n : ℤ) * Complex.exp (Complex.I * (n : ℂ) * ((2 * Real.pi / T : ℝ) : ℂ) * (ti : ℂ)) +
    c (-(n : ℤ)) * Complex.exp (-(Complex.I * (n : ℂ) * ((2 * Real.pi / T : ℝ) : ℂ) * (ti : ℂ)))).sum

/-- Value of the real series at a single sample point `ti`:
`a(0)/2 + Σ_{n=1}^{N} (a(n)·cos(n w ti) + b(n)·sin(n w ti))`, `w = 2π/T`. -/
noncomputable def realPoint (a b : ℤ → ℂ) (N : ℤ) (ti T : ℝ) : ℂ :=
  a 0 / 2 + ((termRange N).map fun (n : ℕ) =>
    a (n : ℤ) * (Real.cos ((n : ℝ) * (2 * Real.pi / T) * ti) : ℂ) +
    b (n : ℤ) * (Real.sin ((n : ℝ) * (2 * Real.pi / T) * ti) : ℂ)).sum

/-- The loop of `complex_fourier`, instrumented to record the indices at
which `c` is fetched, in fetch order (`c(n)` before `c(-n)`, as in the
source). The first state component is the accumulator array, the second the
query log. -/
noncomputable def complexLoopT (c : ℤ → ℂ) (w : ℝ) (t : List ℝ) :
    List ℕ → List ℂ × List ℤ → List ℂ × List ℤ
  | [], st => st
  | n :: rest, st =>
    let c_n := c (n : ℤ)
    let c_nn := c (-(n : ℤ))
    let exponent : List ℂ := t.map fun (ti : ℝ) => Complex.I * (n : ℂ) * (w : ℂ) * (ti : ℂ)
    complexLoopT c w t rest
      (List.zipWith (fun s e => s + c_nn * Complex.exp (-e))
        (List.zipWith (fun s e => s + c_n * Complex.exp e) st.1 exponent) exponent,
       st.2 ++ [(n : ℤ), -(n : ℤ)])

/-- `complex_fourier` instrumented with the coefficient-query log: `c(0)` is
fetched first, then `c(n)`, `c(-n)` for each loop iteration. -/
noncomputable def complex_fourierT (c : ℤ → ℂ) (N : ℤ) (t : List ℝ) (T : ℝ) :
    List ℝ × List ℤ :=
  let w := 2 * Real.pi / T
  let init := (t.map fun _ => (0 : ℂ)).map (fun s => s + c 0)
  let st := complexLoopT c w t (termRange N) (init, [(0 : ℤ)])
  (st.1.map Complex.re, st.2)

/-- The loop of `real_fourier`, instrumented to record the indices at which
`a` (first log) and `b` (second log) are fetched, in fetch order. -/
noncomputable def realLoopT (a b : ℤ → ℂ) (w : ℝ) (t : List ℝ) :
    List ℕ → List ℂ × List ℤ × List ℤ → List ℂ × List ℤ × List ℤ
  | [], st => st
  | n :: rest, st =>
    let a_n := a (n : ℤ)
    let b_n := b (n : ℤ)
    let argument : List ℝ := t.map fun (ti : ℝ) => (n : ℝ) * w * ti
    realLoopT a b w t rest
      (List.zipWith (fun s x => s + b_n * (Real.sin x : ℂ))
        (List.zipWith (fun s x => s + a_n * (Real.cos x : ℂ)) st.1 argument) argument,
       st.2.1 ++ [(n : ℤ)], st.2.2 ++ [(n : ℤ)])

/-- `real_fourier` instrumented with the coefficient-query logs: `a(0)` is
fetched first, then `a(n)`, `b(n)` for each loop iteration.  The second
component is the log of `a`-queries, the third the log of `b`-queries. -/
noncomputable def real_fourierT (a b : ℤ → ℂ) (N : ℤ) (t : List ℝ) (T : ℝ) :
    List ℂ × List ℤ × List ℤ :=
  let w := 2 * Real.pi / T
  let init := (t.map fun _ => (0 : ℂ)).map (fun s => s + a 0 / 2)
  realLoopT a b w t (termRange N) (init, [(0 : ℤ)], [])

/-- Python-level failures of the evaluators: the `ZeroDivisionError` raised
by `w = 2*math.pi/T` when `T = 0`, or an exception `e` raised by a
caller-supplied coefficient function. -/
inductive PyError (ε : Type) : Type where
  | zeroDivision : PyError ε
  | coefficient (e : ε) : PyError ε
deriving DecidableEq

/-- The loop of `complex_fourier` over fallible coefficient functions: the
first coefficient fetch that raises aborts the whole evaluation with that
error, exactly as an uncaught Python exception would. -/
noncomputable def complexLoopE {ε : Type} (c : ℤ → Except ε ℂ) (w : ℝ) (t : List ℝ) :
    List ℕ → List ℂ → Except (PyError ε) (List ℂ)
  | [], acc => .ok acc
  | n :: rest, acc =>
    match c (n : ℤ) with
    | .error e => .error (.coefficient e)
    | .ok c_n =>
      match c (-(n : ℤ)) with
      | .error e => .error (.coefficient e)
      | .ok c_nn =>
        let exponent : List ℂ := t.map fun (ti : ℝ) => Complex.I * (n : ℂ) * (w : ℂ) * (ti : ℂ)
        complexLoopE c w t rest
          (List.zipWith (fun s e => s + c_nn * Complex.exp (-e))
            (List.zipWith (fun s e => s + c_n * Complex.exp e) acc exponent) exponent)

/-- `complex_fourier` over fallible coefficient functions, with the
division `2*math.pi/T` modelled as failing (ZeroDivisionError) iff `T = 0`.
Exceptions propagate to the caller; no partial result is produced. -/
noncomputable def complex_fourierE {ε : Type} (c : ℤ → Except ε ℂ) (N : ℤ)
    (t : List ℝ) (T : ℝ) : Except (PyError ε) (List ℝ) :=
  if T = 0 then .error .zeroDivision
  else
    let w := 2 * Real.pi / T
    match c 0 with
    | .error e => .error (.coefficient e)
    | .ok c_0 =>
      match complexLoopE c w t (termRange N) ((t.map fun _ => (0 : ℂ)).map (fun s => s + c_0)) with
      | .error e => .error e
      | .ok final => .ok (final.map Complex.re)

/-- The loop of `real_fourier` over fallible coefficient functions, fetching
`a(n)` before `b(n)` as in the source. -/
noncomputable def realLoopE {ε : Type} (a b : ℤ → Except ε ℂ) (w : ℝ) (t : List ℝ) :
    List ℕ → List ℂ → Except (PyError ε) (List ℂ)
  | [], acc => .ok acc
  | n :: rest, acc =>
    match a (n : ℤ) with
    | .error e => .error (.coefficient e)
    | .ok a_n =>
      match b (n : ℤ) with
      | .error e => .error (.coefficient e)
      | .ok b_n =>
        let argument : List ℝ := t.map fun (ti : ℝ) => (n : ℝ) * w * ti
        realLoopE a b w t rest
          (List.zipWith (fun s x => s + b_n * (Real.sin x : ℂ))
            (List.zipWith (fun s x => s + a_n * (Real.cos x : ℂ)) acc argument) argument)

/-- `real_fourier` over fallible coefficient functions, with the division
`2*math.pi/T` modelled as failing (ZeroDivisionError) iff `T = 0`. -/
noncomputable def real_fourierE {ε : Type} (a b : ℤ → Except ε ℂ) (N : ℤ)
    (t : List ℝ) (T : ℝ) : Except (PyError ε) (List ℂ) :=
  if T = 0 then .error .zeroDivision
  else
    let w := 2 * Real.pi / T
    match a 0 with
    | .error e => .error (.coefficient e)
    | .ok a_0 =>
      realLoopE a b w t (termRange N) ((t.map fun _ => (0 : ℂ)).map (fun s => s + a_0 / 2))

/-- The error raised by a fallible coefficient lookup, if any. -/
def errOf {ε : Type} (c : ℤ → Except ε ℂ) (m : ℤ) : Option ε :=
  match c m with
  | .error e => some e
  | .ok _ => none

/-- First error raised by `c` along the query order of `complex_fourier`
(`0, 1, -1, 2, -2, …, N, -N`), if any. -/
def complexFirstError {ε : Type} (c : ℤ → Except ε ℂ) (N : ℤ) : Option ε :=
  ((0 : ℤ) :: (termRange N).flatMap fun (n : ℕ) => [(n : ℤ), -(n : ℤ)]).findSome? (errOf c)

/-- First error raised by `a` or `b` along the query order of `real_fourier`
(`a(0)`, then `a(n)`, `b(n)` for `n = 1, …, N`), if any. -/
def realFirstError {ε : Type} (a b : ℤ → Except ε ℂ) (N : ℤ) : Option ε :=
  match errOf a 0 with
  | some e => some e
  | none =>
    (termRange N).findSome? fun (n : ℕ) =>
      match errOf a (n : ℤ) with
      | some e => some e
      | none => errOf b (n : ℤ)

/-- `complex_fourier` called without the period argument: the source
declares the default `T=math.pi*2` in the signature of `complex_fourier`. -/
noncomputable def complex_fourier_default (c : ℤ → ℂ) (N : ℤ) (t : List ℝ) :
    List ℝ :=
  complex_fourier c N t (Real.pi * 2)

/-- `real_fourier` called without the period argument: the source declares
the default `T=math.pi*2` in the signature of `real_fourier`. -/
noncomputable def real_fourier_default (a b : ℤ → ℂ) (N : ℤ) (t : List ℝ) :
    List ℂ :=
  real_fourier a b N t (Real.pi * 2)

theorem mem_termRange {n : ℕ} {N : ℤ} :
    n ∈ termRange N ↔ 1 ≤ n ∧ (n : ℤ) ≤ N := by
  simp only [termRange, List.mem_map, List.mem_range]
  constructor
  · rintro ⟨k, hk, rfl⟩
    omega
  · rintro ⟨h1, h2⟩
    exact ⟨n - 1, by omega, by omega⟩

theorem complexLoop_nil (c : ℤ → ℂ) (w : ℝ) (t : List ℝ) (acc : List ℂ) :
    complexLoop c w t [] acc = acc := rfl

theorem complexLoop_cons (c : ℤ → ℂ) (w : ℝ) (t : List ℝ) (n : ℕ)
    (rest : List ℕ) (acc : List ℂ) :
    complexLoop c w t (n :: rest) acc =
      complexLoop c w t rest
        (List.zipWith (fun s e => s + c (-(n : ℤ)) * Complex.exp (-e))
          (List.zipWith (fun s e => s + c (n : ℤ) * Complex.exp e) acc
            (t.map fun (ti : ℝ) => Complex.I * (n : ℂ) * (w : ℂ) * (ti : ℂ)))
          (t.map fun (ti : ℝ) => Complex.I * (n : ℂ) * (w : ℂ) * (ti : ℂ))) := rfl

theorem realLoop_nil (a b : ℤ → ℂ) (w : ℝ) (t : List ℝ) (acc : List ℂ) :
    realLoop a b w t [] acc = acc := rfl

theorem realLoop_cons (a b : ℤ → ℂ) (w : ℝ) (t : List ℝ) (n : ℕ)
    (rest : List ℕ) (acc : List ℂ) :
    realLoop a b w t (n :: rest) acc =
      realLoop a b w t rest
        (List.zipWith (fun s x => s + b (n : ℤ) * (Real.sin x : ℂ))
          (List.zipWith (fun s x => s + a (n : ℤ) * (Real.cos x : ℂ)) acc
            (t.map fun (ti : ℝ) => (n : ℝ) * w * ti))
          (t.map fun (ti : ℝ) => (n : ℝ) * w * ti)) := rfl

theorem zipWith_map_same {α β γ δ : Type} (op : β → γ → δ) (f : α → β) (g : α → γ)
    (l : List α) :
    List.zipWith op (l.map f) (l.map g) = l.map fun x => op (f x) (g x) := by
  induction l with
  | nil => rfl
  | cons x xs ih => simp [ih]

theorem complexLoop_map (c : ℤ → ℂ) (w : ℝ) (t : List ℝ) (L : List ℕ)
    (f : ℝ → ℂ) :
    complexLoop c w t L (t.map f) = t.map fun ti =>
      f ti + (L.map fun (n : ℕ) =>
        c (n : ℤ) * Complex.exp (Complex.I * (n : ℂ) * (w : ℂ) * (ti : ℂ)) +
        c (-(n : ℤ)) * Complex.exp (-(Complex.I * (n : ℂ) * (w : ℂ) * (ti : ℂ)))).sum := by
  induction L generalizing f with
  | nil => simp [complexLoop_nil]
  | cons n rest ih =>
    rw [complexLoop_cons, zipWith_map_same, zipWith_map_same, ih]
    refine List.map_congr_left fun ti _ => ?_
    simp only [List.map_cons, List.sum_cons]
    ring

theorem realLoop_map (a b : ℤ → ℂ) (w : ℝ) (t : List ℝ) (L : List ℕ)
    (f : ℝ → ℂ) :
    realLoop a b w t L (t.map f) = t.map fun ti =>
      f ti + (L.map fun (n : ℕ) =>
        a (n : ℤ) * (Real.cos ((n : ℝ) * w * ti) : ℂ) +
        b (n : ℤ) * (Real.sin ((n : ℝ) * w * ti) : ℂ)).sum := by
  induction L generalizing f with
  | nil => simp [realLoop_nil]
  | cons n rest ih =>
    rw [realLoop_cons, zipWith_map_same, zipWith_map_same, ih]
    refine List.map_congr_left fun ti _ => ?_
    simp only [List.map_cons, List.sum_cons]
    ring

theorem complex_fourier_eq_map (c : ℤ → ℂ) (N : ℤ) (t : List ℝ) (T : ℝ) :
    complex_fourier c N t T = t.map fun ti => (complexPoint c N ti T).re := by
  have h1 : complex_fourier c N t T =
      (complexLoop c (2 * Real.pi / T) t (termRange N)
        (t.map fun _ => (0 : ℂ) + c 0)).map Complex.re := by
    simp only [complex_fourier, List.map_map]
    rfl
  rw [h1, complexLoop_map, List.map_map]
  refine List.map_congr_left fun ti _ => ?_
  simp only [Function.comp_apply, complexPoint, zero_add]

theorem real_fourier_eq_map (a b : ℤ → ℂ) (N : ℤ) (t : List ℝ) (T : ℝ) :
    real_fourier a b N t T = t.map fun ti => realPoint a b N ti T := by
  have h1 : real_fourier a b N t T =
      realLoop a b (2 * Real.pi / T) t (termRange N)
        (t.map fun _ => (0 : ℂ) + a 0 / 2) := by
    simp only [real_fourier, List.map_map]
    rfl
  rw [h1, realLoop_map]
  refine List.map_congr_left fun ti _ => ?_
  simp only [realPoint, zero_add]

theorem complexLoopT_snd {c : ℤ → ℂ} {w : ℝ} {t : List ℝ} :
    ∀ (L : List ℕ) (st : List ℂ × List ℤ),
      (complexLoopT c w t L st).2 =
        st.2 ++ L.flatMap fun (n : ℕ) => [(n : ℤ), -(n : ℤ)] := by
  intro L
  induction L with
  | nil => intro st; simp [complexLoopT]
  | cons n rest ih =>
    intro st
    rw [complexLoopT, ih]
    simp

theorem complexLoopT_fst {c : ℤ → ℂ} {w : ℝ} {t : List ℝ} :
    ∀ (L : List ℕ) (st : List ℂ × List ℤ),
      (complexLoopT c w t L st).1 = complexLoop c w t L st.1 := by
  intro L
  induction L with
  | nil => intro st; rfl
  | cons n rest ih => intro st; rw [complexLoopT, complexLoop, ih]

theorem realLoopT_snd {a b : ℤ → ℂ} {w : ℝ} {t : List ℝ} :
    ∀ (L : List ℕ) (st : List ℂ × List ℤ × List ℤ),
      (realLoopT a b w t L st).2 =
        (st.2.1 ++ L.map fun (n : ℕ) => (n : ℤ), st.2.2 ++ L.map fun (n : ℕ) => (n : ℤ)) := by
  intro L
  induction L with
  | nil => intro st; simp [realLoopT]
  | cons n rest ih =>
    intro st
    rw [realLoopT, ih]
    simp

theorem realLoopT_fst {a b : ℤ → ℂ} {w : ℝ} {t : List ℝ} :
    ∀ (L : List ℕ) (st : List ℂ × List ℤ × List ℤ),
      (realLoopT a b w t L st).1 = realLoop a b w t L st.1 := by
  intro L
  induction L with
  | nil => intro st; rfl
  | cons n rest ih => intro st; rw [realLoopT, realLoop, ih]

theorem complex_fourierT_fst (c : ℤ → ℂ) (N : ℤ) (t : List ℝ) (T : ℝ) :
    (complex_fourierT c N t T).1 = complex_fourier c N t T := by
  simp only [complex_fourierT, complex_fourier, complexLoopT_fst]

theorem real_fourierT_fst (a b : ℤ → ℂ) (N : ℤ) (t : List ℝ) (T : ℝ) :
    (real_fourierT a b N t T).1 = real_fourier a b N t T := by
  simp only [real_fourierT, real_fourier, realLoopT_fst]

theorem complex_fourierT_log (c : ℤ → ℂ) (N : ℤ) (t : List ℝ) (T : ℝ) :
    (complex_fourierT c N t T).2 =
      (0 : ℤ) :: (termRange N).flatMap fun (n : ℕ) => [(n : ℤ), -(n : ℤ)] := by
  simp [complex_fourierT, complexLoopT_snd]

theorem real_fourierT_logs (a b : ℤ → ℂ) (N : ℤ) (t : List ℝ) (T : ℝ) :
    (real_fourierT a b N t T).2 =
      ((0 : ℤ) :: (termRange N).map fun (n : ℕ) => (n : ℤ),
       (termRange N).map fun (n : ℕ) => (n : ℤ)) := by
  simp [real_fourierT, realLoopT_snd]

theorem pairFlat_mem (k : ℕ) (m : ℤ) :
    m ∈ (((List.range k).map (· + 1)).flatMap fun (n : ℕ) => [(n : ℤ), -(n : ℤ)]) ↔
      (1 ≤ m ∧ m ≤ (k : ℤ)) ∨ (1 ≤ -m ∧ -m ≤ (k : ℤ)) := by
  simp only [List.mem_flatMap, List.mem_map, List.mem_range, List.mem_cons,
    List.mem_singleton, List.not_mem_nil, or_false]
  constructor
  · rintro ⟨n, ⟨j, hj, rfl⟩, h | h⟩ <;> omega
  · rintro (⟨h1, h2⟩ | ⟨h1, h2⟩)
    · exact ⟨m.toNat, ⟨m.toNat - 1, by omega, by omega⟩, by omega⟩
    · exact ⟨(-m).toNat, ⟨(-m).toNat - 1, by omega, by omega⟩, by omega⟩

theorem pairFlat_nodup (k : ℕ) :
    (((List.range k).map (· + 1)).flatMap fun (n : ℕ) => [(n : ℤ), -(n : ℤ)]).Nodup := by
  induction k with
  | zero => simp
  | succ k ih =>
    rw [List.range_succ, List.map_append, List.flatMap_append]
    rw [List.nodup_append]
    refine ⟨ih, ?_, ?_⟩
    · simp only [List.map_singleton, List.flatMap_cons, List.flatMap_nil,
        List.append_nil]
      simp only [List.nodup_cons, List.mem_singleton, List.not_mem_nil,
        not_false_iff, List.nodup_nil, and_true]
      omega
    · intro m hm hm2
      rw [pairFlat_mem] at hm
      simp only [List.map_singleton, List.flatMap_cons, List.flatMap_nil,
        List.append_nil, List.mem_cons, List.mem_singleton,
        List.not_mem_nil, or_false] at hm2
      omega

theorem termRange_nodup (N : ℤ) : (termRange N).Nodup := by
  exact (List.nodup_range N.toNat).map fun x y h => by omega

theorem termRangeInt_nodup (N : ℤ) :
    ((termRange N).map fun (n : ℕ) => (n : ℤ)).Nodup := by
  exact (termRange_nodup N).map fun x y h => by omega

theorem termRangeInt_mem (N m : ℤ) :
    (m ∈ (termRange N).map fun (n : ℕ) => (n : ℤ)) ↔ 1 ≤ m ∧ m ≤ N := by
  simp only [List.mem_map]
  constructor
  · rintro ⟨n, hn, rfl⟩
    rw [mem_termRange] at hn
    omega
  · rintro ⟨h1, h2⟩
    exact ⟨m.toNat, mem_termRange.2 (by omega), by omega⟩

theorem complexLoopE_ok {ε : Type} (c : ℤ → ℂ) (w : ℝ) (t : List ℝ) :
    ∀ (L : List ℕ) (acc : List ℂ),
      complexLoopE (ε := ε) (fun m => .ok (c m)) w t L acc =
        .ok (complexLoop c w t L acc) := by
  intro L
  induction L with
  | nil => intro acc; rfl
  | cons n rest ih => intro acc; rw [complexLoopE, complexLoop]; exact ih _

theorem realLoopE_ok {ε : Type} (a b : ℤ → ℂ) (w : ℝ) (t : List ℝ) :
    ∀ (L : List ℕ) (acc : List ℂ),
      realLoopE (ε := ε) (fun m => .ok (a m)) (fun m => .ok (b m)) w t L acc =
        .ok (realLoop a b w t L acc) := by
  intro L
  induction L with
  | nil => intro acc; rfl
  | cons n rest ih => intro acc; rw [realLoopE, realLoop]; exact ih _

theorem complexLoopE_error {ε : Type} (c : ℤ → Except ε ℂ) (w : ℝ) (t : List ℝ) :
    ∀ (L : List ℕ) (acc : List ℂ) (e : ε),
      (L.flatMap fun (n : ℕ) => [(n : ℤ), -(n : ℤ)]).findSome? (errOf c) = some e →
        complexLoopE c w t L acc = .error (.coefficient e) := by
  intro L
  induction L with
  | nil => intro acc e h; simp at h
  | cons n rest ih =>
    intro acc e h
    simp only [List.flatMap_cons, List.cons_append, List.nil_append,
      List.findSome?_cons] at h
    rw [complexLoopE]
    cases hc : c (n : ℤ) with
    | error e0 =>
      simp only [errOf, hc] at h
      cases h
      rfl
    | ok cn =>
      simp only [errOf, hc] at h
      cases hc2 : c (-(n : ℤ)) with
      | error e0 =>
        simp only [errOf, hc2] at h
        cases h
        rfl
      | ok cnn =>
        simp only [errOf, hc2] at h
        exact ih _ e h

theorem realLoopE_error {ε : Type} (a b : ℤ → Except ε ℂ) (w : ℝ) (t : List ℝ) :
    ∀ (L : List ℕ) (acc : List ℂ) (e : ε),
      (L.findSome? fun (n : ℕ) =>
        match errOf a (n : ℤ) with
        | some e => some e
        | none => errOf b (n : ℤ)) = some e →
        realLoopE a b w t L acc = .error (.coefficient e) := by
  intro L
  induction L with
  | nil => intro acc e h; exact Option.noConfusion h
  | cons n rest ih =>
    intro acc e h
    rw [List.findSome?_cons] at h
    rw [realLoopE]
    cases ha : a (n : ℤ) with
    | error e0 =>
      simp only [errOf, ha] at h
      cases h
      rfl
    | ok an =>
      simp only [errOf, ha] at h
      cases hb : b (n : ℤ) with
      | error e0 =>
        simp only [errOf, hb] at h
        cases h
        rfl
      | ok bn =>
        simp only [errOf, hb] at h
        exact ih _ e h

theorem complexLoopE_nil {ε : Type} (c : ℤ → Except ε ℂ) (w : ℝ) (t : List ℝ)
    (acc : List ℂ) : complexLoopE c w t [] acc = .ok acc := rfl

theorem realLoopE_nil {ε : Type} (a b : ℤ → Except ε ℂ) (w : ℝ) (t : List ℝ)
    (acc : List ℂ) : realLoopE a b w t [] acc = .ok acc := rfl

/-- C3: for every domain and every `T > 0`, with `N = 0`, `complex_fourier`
returns the real part of `c(0)` repeated at every sample point, and
`real_fourier` returns `a(0)/2` repeated at every sample point. -/
theorem spec_C3 (c a b : ℤ → ℂ) (t : List ℝ) (T : ℝ) (hT : 0 < T) :
    complex_fourier c 0 t T = List.replicate t.length (c 0).re ∧
    real_fourier a b 0 t T = List.replicate t.length (a 0 / 2) := by
  constructor
  · rw [complex_fourier_eq_map]
    rw [show (fun ti => (complexPoint c 0 ti T).re) = fun _ : ℝ => (c 0).re from
      funext fun ti => by simp [complexPoint, termRange]]
    simp
  · rw [real_fourier_eq_map]
    rw [show (fun ti => realPoint a b 0 ti T) = fun _ : ℝ => a 0 / 2 from
      funext fun ti => by simp [realPoint, termRange]]
    simp

theorem spec_C3_witness :
    (0 : ℝ) < 1 ∧
    complex_fourier (fun _ => Complex.I) 0 [37] 1 = [0] ∧
    real_fourier (fun _ => 3) (fun _ => 5) 0 [37] 1 = [3 / 2] := by
  obtain ⟨h1, h2⟩ :=
    spec_C3 (fun _ => Complex.I) (fun _ => (3 : ℂ)) (fun _ => (5 : ℂ)) [37] 1
      (by norm_num)
  refine ⟨by norm_num, ?_, ?_⟩
  · rw [h1]; simp
  · rw [h2]; norm_num

/-- C7: for every `N`, `T` and domain, `real_fourier` never queries the
sine-coefficient function `b` at index `0` (the `b`-query log of the
instrumented evaluator never contains `0`). -/
theorem spec_C7 (a b : ℤ → ℂ) (N : ℤ) (t : List ℝ) (T : ℝ) :
    (0 : ℤ) ∉ (real_fourierT a b N t T).2.2 := by
  have h : (real_fourierT a b N t T).2.2 =
      (termRange N).map fun (n : ℕ) => (n : ℤ) := by
    rw [real_fourierT_logs]
  rw [h, termRangeInt_mem]
  omega

/-- C8: with `c(n) = 1 if n == 0 else 0`, `T = 2π`, domain `[0, π, 2π]` and
`N = 5`, `complex_fourier` returns `[1.0, 1.0, 1.0]`. -/
theorem spec_C8 :
    complex_fourier (fun n => if n = 0 then 1 else 0) 5
      [0, Real.pi, 2 * Real.pi] (2 * Real.pi) = [1, 1, 1] := by
  rw [complex_fourier_eq_map]
  have hpt : ∀ ti : ℝ,
      (complexPoint (fun n => if n = 0 then 1 else 0) 5 ti (2 * Real.pi)).re = 1 := by
    intro ti
    simp only [complexPoint]
    rw [show termRange 5 = [1, 2, 3, 4, 5] from rfl]
    simp
  simp only [List.map_cons, List.map_nil, hpt]

/-- C10: the source declares `T=math.pi*2` as the default period for both
evaluators, so a call without a `T` argument returns the same result as the
call with `T = 2π`. -/
theorem spec_C10 (c a b : ℤ → ℂ) (N : ℤ) (t : List ℝ) :
    complex_fourier_default c N t = complex_fourier c N t (2 * Real.pi) ∧
    real_fourier_default a b N t = real_fourier a b N t (2 * Real.pi) := by
  rw [complex_fourier_default, real_fourier_default, mul_comm Real.pi 2]
  exact ⟨rfl, rfl⟩

/-- C1, counterexample: calling `complex_fourier` with `N = -1 < 0` (and a
valid period `T = 1`) raises nothing and produces a full result — one value
per sample point — contradicting the claim that `N < 0` raises an
`InvalidParameter` error and produces no result. -/
theorem spec_C1_counterexample :
    complex_fourierE (ε := Unit) (fun _ => .ok 1) (-1) [0] 1 = .ok [1] := by
  rw [complex_fourierE, if_neg one_ne_zero]
  show (match complexLoopE (ε := Unit) (fun _ => .ok 1) (2 * Real.pi / 1) [0]
      (termRange (-1)) (([(0 : ℝ)].map fun _ => (0 : ℂ)).map (fun s => s + 1)) with
    | Except.error e => (Except.error e : Except (PyError Unit) (List ℝ))
    | Except.ok final => Except.ok (final.map Complex.re)) = .ok [1]
  rw [show termRange (-1) = [] from rfl, complexLoopE_nil]
  simp

/-- C1, amended: the evaluators do not validate their parameters.  `T = 0`
raises a `ZeroDivisionError` (from `w = 2*math.pi/T`) before any
accumulation and produces no result; any `T ≠ 0` (including negative `T`)
and any `N` (including `N < 0`) raise nothing and produce a full result,
`N < 0` behaving exactly like `N = 0`. -/
theorem spec_C1_amended {ε : Type} (c a b : ℤ → ℂ) (N : ℤ) (t : List ℝ) (T : ℝ) :
    (T = 0 →
      complex_fourierE (ε := ε) (fun n => .ok (c n)) N t T = .error .zeroDivision ∧
      real_fourierE (ε := ε) (fun n => .ok (a n)) (fun n => .ok (b n)) N t T =
        .error .zeroDivision) ∧
    (T ≠ 0 →
      complex_fourierE (ε := ε) (fun n => .ok (c n)) N t T =
        .ok (complex_fourier c N t T) ∧
      real_fourierE (ε := ε) (fun n => .ok (a n)) (fun n => .ok (b n)) N t T =
        .ok (real_fourier a b N t T)) ∧
    (N < 0 →
      complex_fourier c N t T = complex_fourier c 0 t T ∧
      real_fourier a b N t T = real_fourier a b 0 t T) := by
  refine ⟨fun hT => ?_, fun hT => ?_, fun hN => ?_⟩
  · rw [complex_fourierE, real_fourierE, if_pos hT, if_pos hT]
    exact ⟨rfl, rfl⟩
  · constructor
    · rw [complex_fourierE, if_neg hT]
      show (match complexLoopE (ε := ε) (fun n => .ok (c n)) (2 * Real.pi / T) t
          (termRange N) ((t.map fun _ => (0 : ℂ)).map (fun s => s + c 0)) with
        | Except.error e => (Except.error e : Except (PyError ε) (List ℝ))
        | Except.ok final => Except.ok (final.map Complex.re)) =
        .ok (complex_fourier c N t T)
      rw [complexLoopE_ok]
      rfl
    · rw [real_fourierE, if_neg hT]
      show realLoopE (ε := ε) (fun n => .ok (a n)) (fun n => .ok (b n))
          (2 * Real.pi / T) t (termRange N)
          ((t.map fun _ => (0 : ℂ)).map (fun s => s + a 0 / 2)) =
        .ok (real_fourier a b N t T)
      rw [realLoopE_ok]
      rfl
  · have h : termRange N = termRange 0 := by
      rw [termRange, termRange, Int.toNat_of_nonpos (le_of_lt hN)]
      rfl
    rw [complex_fourier, complex_fourier, real_fourier, real_fourier, h]
    exact ⟨rfl, rfl⟩

theorem spec_C1_witness :
    complex_fourierE (ε := Unit) (fun _ => .ok 1) 0 [] 0 = .error .zeroDivision ∧
    complex_fourierE (ε := Unit) (fun _ => .ok 1) 0 [] 1 =
      .ok (complex_fourier (fun _ => (1 : ℂ)) 0 [] 1) := by
  constructor
  · exact ((spec_C1_amended (ε := Unit) (fun _ => 1) (fun _ => 1) (fun _ => 1)
      0 [] 0).1 rfl).1
  · exact ((spec_C1_amended (ε := Unit) (fun _ => 1) (fun _ => 1) (fun _ => 1)
      0 [] 1).2.1 one_ne_zero).1

theorem list_sum_im (l : List ℂ) : l.sum.im = (l.map Complex.im).sum := by
  induction l with
  | nil => simp
  | cons x xs ih => simp [ih]

/-- C4: for every valid input (`T > 0`, `N ≥ 0`, any finite domain), each
evaluator returns one value per sample point, in the same order: the result
has the length of the domain and its `i`-th entry is the series value at the
`i`-th sample point alone; and with real-valued coefficient functions (the
declared contract of `real_fourier`) every returned value is real. -/
theorem spec_C4 (c a b : ℤ → ℂ) (N : ℤ) (t : List ℝ) (T : ℝ)
    (hT : 0 < T) (hN : 0 ≤ N) :
    (complex_fourier c N t T).length = t.length ∧
    (∀ (i : ℕ) (h : i < t.length) (h2 : i < (complex_fourier c N t T).length),
      (complex_fourier c N t T).get ⟨i, h2⟩ =
        (complexPoint c N (t.get ⟨i, h⟩) T).re) ∧
    (real_fourier a b N t T).length = t.length ∧
    (∀ (i : ℕ) (h : i < t.length) (h2 : i < (real_fourier a b N t T).length),
      (real_fourier a b N t T).get ⟨i, h2⟩ = realPoint a b N (t.get ⟨i, h⟩) T) ∧
    ((∀ n : ℤ, (a n).im = 0) → (∀ n : ℤ, (b n).im = 0) →
      ∀ x ∈ real_fourier a b N t T, x.im = 0) := by
  refine ⟨?_, ?_, ?_, ?_, ?_⟩
  · rw [complex_fourier_eq_map, List.length_map]
  · intro i h h2
    simp only [complex_fourier_eq_map, List.get_eq_getElem, List.getElem_map]
  · rw [real_fourier_eq_map, List.length_map]
  · intro i h h2
    simp only [real_fourier_eq_map, List.get_eq_getElem, List.getElem_map]
  · intro ha hb x hx
    rw [real_fourier_eq_map] at hx
    obtain ⟨ti, _, rfl⟩ := List.mem_map.1 hx
    rw [realPoint, Complex.add_im, list_sum_im]
    have h0 : (a 0 / 2).im = 0 := by
      obtain ⟨r, hr⟩ : ∃ r : ℝ, a 0 = (r : ℂ) :=
        ⟨(a 0).re, by apply Complex.ext <;> simp [ha 0]⟩
      rw [hr, show ((r : ℂ) / 2) = ((r / 2 : ℝ) : ℂ) by push_cast; ring]
      exact Complex.ofReal_im _
    rw [h0, zero_add]
    apply List.sum_eq_zero
    intro y hy
    simp only [List.map_map, List.mem_map, Function.comp_apply] at hy
    obtain ⟨n, _, rfl⟩ := hy
    simp only [Complex.add_im, Complex.mul_im, Complex.ofReal_im,
      Complex.ofReal_re, ha, hb, mul_zero, zero_mul, add_zero, zero_add]

theorem spec_C4_witness :
    (0 : ℝ) < 1 ∧ (0 : ℤ) ≤ 0 ∧
    (complex_fourier (fun _ => 1) 0 [0] 1).length = 1 ∧
    (real_fourier (fun _ => 1) (fun _ => 1) 0 [0] 1).length = 1 := by
  obtain ⟨h1, -, h3, -, -⟩ :=
    spec_C4 (fun _ => 1) (fun _ => 1) (fun _ => 1) 0 [0] 1 (by norm_num) le_rfl
  exact ⟨by norm_num, le_rfl, by rw [h1]; rfl, by rw [h3]; rfl⟩

/-- C6: in one evaluation, each coefficient is fetched exactly once per term
index, never once per sample point: the query log of `complex_fourier` has
no duplicates, contains exactly the indices `0, ±1, …, ±N`, and does not
depend on the domain; the `a`-log of `real_fourier` is exactly `0, 1, …, N`
and its `b`-log exactly `1, …, N`, both duplicate-free and independent of
the domain. -/
theorem spec_C6 (c a b : ℤ → ℂ) (N : ℤ) (t t2 : List ℝ) (T : ℝ) :
    ((complex_fourierT c N t T).2.Nodup ∧
     (∀ m : ℤ, m ∈ (complex_fourierT c N t T).2 ↔
        m = 0 ∨ (1 ≤ m ∧ m ≤ N) ∨ (1 ≤ -m ∧ -m ≤ N)) ∧
     (complex_fourierT c N t T).2 = (complex_fourierT c N t2 T).2) ∧
    ((real_fourierT a b N t T).2.1.Nodup ∧
     (∀ m : ℤ, m ∈ (real_fourierT a b N t T).2.1 ↔ m = 0 ∨ (1 ≤ m ∧ m ≤ N)) ∧
     (real_fourierT a b N t T).2.2.Nodup ∧
     (∀ m : ℤ, m ∈ (real_fourierT a b N t T).2.2 ↔ 1 ≤ m ∧ m ≤ N) ∧
     (real_fourierT a b N t T).2 = (real_fourierT a b N t2 T).2) := by
  have hflat : (termRange N).flatMap (fun (n : ℕ) => [(n : ℤ), -(n : ℤ)]) =
      ((List.range N.toNat).map (· + 1)).flatMap fun (n : ℕ) => [(n : ℤ), -(n : ℤ)] := by
    rw [termRange]
  refine ⟨⟨?_, ?_, ?_⟩, ?_, ?_, ?_, ?_, ?_⟩
  · rw [complex_fourierT_log, List.nodup_cons, hflat]
    refine ⟨fun h => ?_, pairFlat_nodup N.toNat⟩
    rw [pairFlat_mem] at h
    omega
  · intro m
    rw [complex_fourierT_log, List.mem_cons, hflat, pairFlat_mem]
    omega
  · rw [complex_fourierT_log, complex_fourierT_log]
  · have h : (real_fourierT a b N t T).2.1 =
        (0 : ℤ) :: (termRange N).map fun (n : ℕ) => (n : ℤ) := by
      rw [real_fourierT_logs]
    rw [h, List.nodup_cons]
    refine ⟨fun hm => ?_, termRangeInt_nodup N⟩
    rw [termRangeInt_mem] at hm
    omega
  · intro m
    have h : (real_fourierT a b N t T).2.1 =
        (0 : ℤ) :: (termRange N).map fun (n : ℕ) => (n : ℤ) := by
      rw [real_fourierT_logs]
    rw [h, List.mem_cons, termRangeInt_mem]
  · have h : (real_fourierT a b N t T).2.2 =
        (termRange N).map fun (n : ℕ) => (n : ℤ) := by
      rw [real_fourierT_logs]
    rw [h]
    exact termRangeInt_nodup N
  · intro m
    have h : (real_fourierT a b N t T).2.2 =
        (termRange N).map fun (n : ℕ) => (n : ℤ) := by
      rw [real_fourierT_logs]
    rw [h, termRangeInt_mem]
  · rw [real_fourierT_logs, real_fourierT_logs]

/-- C9: with `a ≡ 0`, `b(1) = 1` and `b(n) = 0` otherwise, `T = 2π`, domain
`[0, π/2, π]` and `N = 1`, `real_fourier` returns `[0.0, 1.0, 0.0]`. -/
theorem spec_C9 :
    real_fourier (fun _ => 0) (fun n => if n = 1 then 1 else 0) 1
      [0, Real.pi / 2, Real.pi] (2 * Real.pi) = [0, 1, 0] := by
  rw [real_fourier_eq_map]
  have hpt : ∀ ti : ℝ,
      realPoint (fun _ => 0) (fun n => if n = 1 then 1 else 0) 1 ti (2 * Real.pi) =
        ((Real.sin ti : ℝ) : ℂ) := by
    intro ti
    rw [realPoint, show termRange 1 = [1] from rfl]
    have h2 : 2 * Real.pi / (2 * Real.pi) = 1 := div_self (by positivity)
    simp [h2]
  simp only [List.map_cons, List.map_nil, hpt]
  rw [Real.sin_zero, Real.sin_pi_div_two, Real.sin_pi]
  norm_num

/-- C5: a coefficient-function exception is propagated unchanged to the
caller — neither evaluator catches or masks it — and no (partial) result
value is returned: if the first failing query along the evaluator's query
order raises `e`, the whole evaluation fails with exactly `e`. -/
theorem spec_C5 {ε : Type} (c a b : ℤ → Except ε ℂ) (N : ℤ) (t : List ℝ)
    (T : ℝ) (e : ε) (hT : T ≠ 0) :
    (complexFirstError c N = some e →
      complex_fourierE c N t T = .error (.coefficient e)) ∧
    (realFirstError a b N = some e →
      real_fourierE a b N t T = .error (.coefficient e)) := by
  constructor
  · intro h
    rw [complexFirstError, List.findSome?_cons] at h
    rw [complex_fourierE, if_neg hT]
    cases hc : c 0 with
    | error e0 =>
      simp only [errOf, hc] at h
      cases h
      simp only [hc]
    | ok c0 =>
      simp only [errOf, hc] at h
      simp only [hc]
      rw [complexLoopE_error c (2 * Real.pi / T) t (termRange N) _ e h]
  · intro h
    rw [realFirstError] at h
    rw [real_fourierE, if_neg hT]
    cases ha : a 0 with
    | error e0 =>
      simp only [errOf, ha] at h
      cases h
      simp only [ha]
    | ok a0 =>
      simp only [errOf, ha] at h
      simp only [ha]
      exact realLoopE_error a b (2 * Real.pi / T) t (termRange N) _ e h

theorem spec_C5_witness :
    (1 : ℝ) ≠ 0 ∧
    complexFirstError (ε := String) (fun _ => .error "boom") 2 = some "boom" ∧
    complex_fourierE (ε := String) (fun _ => .error "boom") 2 [0] 1 =
      .error (.coefficient "boom") ∧
    realFirstError (ε := String) (fun _ => .error "bam") (fun _ => .ok 1) 2 =
      some "bam" ∧
    real_fourierE (ε := String) (fun _ => .error "bam") (fun _ => .ok 1) 2 [0] 1 =
      .error (.coefficient "bam") := by
  refine ⟨one_ne_zero, rfl, ?_, rfl, ?_⟩
  · exact (spec_C5 (fun _ => .error "boom") (fun _ => .error "bam")
      (fun _ => .ok 1) 2 [0] 1 "boom" one_ne_zero).1 rfl
  · exact (spec_C5 (fun _ => .error "boom") (fun _ => .error "bam")
      (fun _ => .ok 1) 2 [0] 1 "bam" one_ne_zero).2 rfl

theorem realPoint_eq_complexPoint (c : ℤ → ℂ) (N : ℤ) (ti T : ℝ)
    (hsym : ∀ n : ℤ, 1 ≤ n → n ≤ N → c (-n) = (starRingEnd ℂ) (c n)) :
    realPoint (fun n => c n + c (-n)) (fun n => Complex.I * (c n - c (-n)))
      N ti T = complexPoint c N ti T := by
  rw [realPoint, complexPoint]
  congr 1
  · rw [neg_zero]
    ring
  · refine congrArg List.sum (List.map_congr_left fun n hn => ?_)
    rw [mem_termRange] at hn
    have hc : c (-(n : ℤ)) = (starRingEnd ℂ) (c (n : ℤ)) :=
      hsym (n : ℤ) (by omega) hn.2
    simp only [hc]
    have harg : Complex.I * (n : ℂ) * ((2 * Real.pi / T : ℝ) : ℂ) * (ti : ℂ) =
        (((n : ℝ) * (2 * Real.pi / T) * ti : ℝ) : ℂ) * Complex.I := by
      push_cast
      ring
    rw [harg, Complex.exp_mul_I,
      show -((((n : ℝ) * (2 * Real.pi / T) * ti : ℝ) : ℂ) * Complex.I) =
        ((-((n : ℝ) * (2 * Real.pi / T) * ti) : ℝ) : ℂ) * Complex.I by
          push_cast; ring,
      Complex.exp_mul_I, Complex.ofReal_cos, Complex.ofReal_sin,
      Complex.ofReal_neg, Complex.cos_neg, Complex.sin_neg]
    ring

theorem complexPoint_im (c : ℤ → ℂ) (N : ℤ) (ti T : ℝ)
    (hsym : ∀ n : ℤ, 1 ≤ n → n ≤ N → c (-n) = (starRingEnd ℂ) (c n))
    (hc0 : (c 0).im = 0) :
    (complexPoint c N ti T).im = 0 := by
  rw [complexPoint, Complex.add_im, hc0, zero_add, list_sum_im]
  apply List.sum_eq_zero
  intro y hy
  simp only [List.map_map, List.mem_map, Function.comp_apply] at hy
  obtain ⟨n, hn, rfl⟩ := hy
  rw [mem_termRange] at hn
  have hc : c (-(n : ℤ)) = (starRingEnd ℂ) (c (n : ℤ)) :=
    hsym (n : ℤ) (by omega) hn.2
  rw [hc]
  have h2 : (starRingEnd ℂ) (c (n : ℤ) *
      Complex.exp (Complex.I * (n : ℂ) * ((2 * Real.pi / T : ℝ) : ℂ) * (ti : ℂ))) =
      (starRingEnd ℂ) (c (n : ℤ)) *
      Complex.exp (-(Complex.I * (n : ℂ) * ((2 * Real.pi / T : ℝ) : ℂ) * (ti : ℂ))) := by
    rw [map_mul, ← Complex.exp_conj]
    congr 1
    simp only [map_mul, Complex.conj_I, Complex.conj_ofReal, map_natCast]
    ring
  rw [← h2, Complex.add_conj]
  exact Complex.ofReal_im _

/-- C2, counterexample: with `c(0) = i` (and `c` vanishing elsewhere),
`N = 0`, `T = 1` and domain `[0]`, the symmetry hypothesis for `n ∈ 1..N` is
vacuous, yet `real_fourier` with `a(n) = c(n)+c(-n)`, `b(n) = i·(c(n)-c(-n))`
returns `[i]` while `complex_fourier` returns `[Re i] = [0]`: the two
results differ even in exact arithmetic. -/
theorem spec_C2_counterexample :
    real_fourier
      (fun n => (if n = 0 then Complex.I else 0) + (if -n = 0 then Complex.I else 0))
      (fun n => Complex.I *
        ((if n = 0 then Complex.I else 0) - (if -n = 0 then Complex.I else 0)))
      0 [0] 1 ≠
    (complex_fourier (fun n => if n = 0 then Complex.I else 0) 0 [0] 1).map
      (fun (x : ℝ) => (x : ℂ)) := by
  rw [real_fourier_eq_map, complex_fourier_eq_map]
  simp only [List.map_cons, List.map_nil, realPoint, complexPoint,
    show termRange 0 = [] from rfl]
  simp [Complex.ext_iff]

/-- C2, amended: if `c(n)` and `c(-n)` are complex conjugates for all
`n ∈ 1..N` **and `c(0)` is real**, then for every `T > 0` and domain the
result of `real_fourier` with `a(n) = c(n)+c(-n)`, `b(n) = i·(c(n)-c(-n))`
agrees exactly (in exact arithmetic) with the result of `complex_fourier`. -/
theorem spec_C2_amended (c : ℤ → ℂ) (N : ℤ) (t : List ℝ) (T : ℝ)
    (hT : 0 < T)
    (hsym : ∀ n : ℤ, 1 ≤ n → n ≤ N → c (-n) = (starRingEnd ℂ) (c n))
    (hc0 : (c 0).im = 0) :
    real_fourier (fun n => c n + c (-n)) (fun n => Complex.I * (c n - c (-n)))
      N t T = (complex_fourier c N t T).map (fun (x : ℝ) => (x : ℂ)) := by
  rw [real_fourier_eq_map, complex_fourier_eq_map, List.map_map]
  refine List.map_congr_left fun ti _ => ?_
  simp only [Function.comp_apply]
  rw [realPoint_eq_complexPoint c N ti T hsym]
  have him := complexPoint_im c N ti T hsym hc0
  apply Complex.ext
  · simp
  · simp [him]

theorem spec_C2_witness :
    (0 : ℝ) < 1 ∧
    real_fourier (fun _ => (1 : ℂ) + 1) (fun _ => Complex.I * ((1 : ℂ) - 1))
      1 [0] 1 =
      (complex_fourier (fun _ => (1 : ℂ)) 1 [0] 1).map (fun (x : ℝ) => (x : ℂ)) := by
  refine ⟨by norm_num, ?_⟩
  exact spec_C2_amended (fun _ => (1 : ℂ)) 1 [0] 1 (by norm_num)
    (fun n h1 h2 => by simp) (by simp)

end Fourier

